import Mathlib

/-!
Verification of the math2doc LaTeX-to-math-tree parser and document
assembler.  The definitions below are a shallow embedding of
`src/services/DocxGenerator.js` (symbol table, `getNextUnit`,
`extractGroup`, `parseLatexNodes`, the per-line document assembly of
`generateWordDocument`) and of the model-fallback loop of
`src/services/GeminiService.js`.  Strings are embedded as `List Char`;
JavaScript exceptions (the only reachable one is the TypeError from
dereferencing a `null` returned by `getNextUnit`) are embedded as the
`Except` error case.  The scanning loop is given as a fuel-indexed
structural recursion; the fuel budget `(n + 2) * (n + 2)` strictly
dominates the length-based measure that makes the JavaScript loop
terminate, so fuel exhaustion is unreachable from the public entry
point and is kept as a separate error constructor `noFuel` so that it
can never be confused with the embedded TypeError.
-/

namespace Math2Doc

/-- Open-brace character (spelled numerically). -/
def obr : Char := Char.ofNat 123

/-- Close-brace character (spelled numerically). -/
def cbr : Char := Char.ofNat 125

/-- The parsed math nodes: docx `MathRun`, `MathFraction`, `MathRadical`
(its degree is always empty in the source), `MathSuperScript` and
`MathSubScript` (whose base is the `children` field, a list). -/
inductive MathNode : Type where
  | run (text : List Char)
  | frac (numerator denominator : List MathNode)
  | rad (children : List MathNode)
  | sup (children script : List MathNode)
  | sub (children script : List MathNode)

/-- Embedded failure modes: `typeError` is the JavaScript TypeError thrown
when `getNextUnit` returns `null` and the code dereferences `.endIndex`;
`noFuel` marks fuel exhaustion of the embedding (unreachable from
`parseLatexNodes`, whose fuel dominates the terminating measure). -/
inductive PErr : Type where
  | typeError
  | noFuel

/-- `LATEX_SYMBOLS` from DocxGenerator.js: LaTeX command (with leading
backslash) to Unicode text.  `\sqrt` and `\frac` map to the empty string. -/
def LATEX_SYMBOLS : List (List Char × List Char) :=
  [ ("\\alpha".toList, "α".toList), ("\\beta".toList, "β".toList),
    ("\\gamma".toList, "γ".toList), ("\\theta".toList, "θ".toList),
    ("\\pi".toList, "π".toList), ("\\sigma".toList, "σ".toList),
    ("\\phi".toList, "φ".toList), ("\\Phi".toList, "Φ".toList),
    ("\\delta".toList, "δ".toList), ("\\lambda".toList, "λ".toList),
    ("\\mu".toList, "μ".toList),
    ("\\Delta".toList, "Δ".toList), ("\\Omega".toList, "Ω".toList),
    ("\\ne".toList, "≠".toList), ("\\neq".toList, "≠".toList),
    ("\\le".toList, "≤".toList), ("\\ge".toList, "≥".toList),
    ("\\pm".toList, "±".toList), ("\\approx".toList, "≈".toList),
    ("\\times".toList, "×".toList), ("\\cdot".toList, "·".toList),
    ("\\div".toList, "÷".toList), ("\\infty".toList, "∞".toList),
    ("\\rightarrow".toList, "→".toList), ("\\leftarrow".toList, "←".toList),
    ("\\Rightarrow".toList, "⇒".toList), ("\\Leftrightarrow".toList, "⇔".toList),
    ("\\circ".toList, "°".toList), ("\\degree".toList, "°".toList),
    ("\\angle".toList, "∠".toList),
    ("\\triangle".toList, "△".toList), ("\\cong".toList, "≅".toList),
    ("\\sim".toList, "∽".toList), ("\\parallel".toList, "∥".toList),
    ("\\perp".toList, "⊥".toList),
    ("\\cup".toList, "∪".toList), ("\\cap".toList, "∩".toList),
    ("\\in".toList, "∈".toList), ("\\subset".toList, "⊂".toList),
    ("\\supset".toList, "⊃".toList),
    ("\\forall".toList, "∀".toList), ("\\exists".toList, "∃".toList),
    ("\\sqrt".toList, "".toList),
    ("\\frac".toList, "".toList) ]

/-- JavaScript `str.slice(a, b)` for the index ranges used by the source
(`0 ≤ a`, `b` clamped, empty when `b ≤ a`). -/
def slice (l : List Char) (a b : Nat) : List Char :=
  (l.drop a).take (b - a)

/-- The regex test `/[a-zA-Z]/.test(c)`. -/
def isAsciiAlpha (c : Char) : Bool :=
  decide ('a' ≤ c ∧ c ≤ 'z') || decide ('A' ≤ c ∧ c ≤ 'Z')

/-- The scan `let end = e; while (end < len && /[a-zA-Z]/.test(s[end])) end++`:
the first index at or after `e` holding a non-alphabetic character
(or the length of the string). -/
def scanAlpha (l : List Char) (e : Nat) : Nat :=
  e + ((l.drop e).takeWhile isAsciiAlpha).length

/-- JavaScript `str.indexOf(c, s)` (`none` for `-1`). -/
def indexOfFrom (l : List Char) (c : Char) (s : Nat) : Option Nat :=
  ((l.drop s).findIdx? (fun x => x == c)).map (fun j => j + s)

/-- The depth-tracking scan of `extractGroup`:
`while (end < len && depth > 0) { if open depth++; else if close depth--; end++ }`.
Arguments: the characters from position `e` on, the current depth, and `e`;
returns the final value of `end`. -/
def braceScanList : List Char → Nat → Nat → Nat
  | [], _, e => e
  | c :: rest, depth, e =>
    if depth = 0 then e
    else braceScanList rest
      (if c = obr then depth + 1 else if c = cbr then depth - 1 else depth) (e + 1)

/-- `extractGroup(str, startIndex)` from DocxGenerator.js: find the first
open brace at or after `startIndex`, scan with nesting depth, and return
`(str.slice(start+1, end-1), end)`; when no open brace exists at all,
return empty content and `startIndex + 1`. -/
def extractGroup (str : List Char) (startIndex : Nat) : List Char × Nat :=
  match indexOfFrom str obr startIndex with
  | none => ([], startIndex + 1)
  | some start =>
    (slice str (start + 1) (braceScanList (str.drop (start + 1)) 1 (start + 1) - 1),
     braceScanList (str.drop (start + 1)) 1 (start + 1))

/-- The record returned by `getNextUnit`. -/
structure UnitInfo : Type where
  content : List Char
  endIndex : Nat
  isGroup : Bool

/-- `getNextUnit(idx)` from `parseLatexNodes`: `none` embeds the JavaScript
`null` (index at or past the end); a brace opens a group via `extractGroup`;
a backslash grabs the command token (backslash plus following alphabetic
run); otherwise the single character at `idx`. -/
def getNextUnit (latex : List Char) (idx : Nat) : Option UnitInfo :=
  if latex.length ≤ idx then none
  else if latex.getD idx ' ' = obr then
    some ⟨(extractGroup latex idx).1, (extractGroup latex idx).2, true⟩
  else if latex.getD idx ' ' = '\\' then
    some ⟨slice latex idx (scanAlpha latex (idx + 1)), scanAlpha latex (idx + 1), false⟩
  else
    some ⟨[latex.getD idx ' '], idx + 1, false⟩

/-- The generic-command branch: `LATEX_SYMBOLS[cmd]` is looked up and
JavaScript truthiness applies, so a hit bound to the empty string (the
`\sqrt`/`\frac` sentinels) falls back to the raw command text, exactly as
an absent key does. -/
def symbolResult (cmd : List Char) : List Char :=
  match LATEX_SYMBOLS.lookup cmd with
  | some v => if v = [] then cmd else v
  | none => cmd

/-- The token `"\\frac"` tested by `remaining.startsWith('\\frac')`. -/
def fracTok : List Char := "\\frac".toList

/-- The token `"\\sqrt"` tested by `remaining.startsWith('\\sqrt')`. -/
def sqrtTok : List Char := "\\sqrt".toList

/-- The scanning loop of `parseLatexNodes`, indexed by fuel.  State: the
input, the cursor `i`, and the node list built so far.  Each branch mirrors
the JavaScript `while` body: skip spaces; on `^`/`_` pop the last node as
base (an empty `MathRun` when there is none), `break` when `getNextUnit`
returns `null`, else recursively parse the unit and push the script node;
on `\frac`/`\sqrt` prefixes consume the operand units (dereferencing a
`null` unit is the JavaScript TypeError, embedded as `.error .typeError`)
and push the structural node; on any other backslash run the symbol-table
branch; skip stray braces; push any other character as a run.  A nested
`parseLatexNodes(content)` call enters the loop again at cursor `0` with
the remaining fuel. -/
def loopF : Nat → List Char → Nat → List MathNode → Except PErr (List MathNode)
  | 0, _, _, _ => .error .noFuel
  | Nat.succ f, latex, i, nodes =>
    if h : i < latex.length then
      if latex.get ⟨i, h⟩ = ' ' then
        loopF f latex (i + 1) nodes
      else if latex.get ⟨i, h⟩ = '^' ∨ latex.get ⟨i, h⟩ = '_' then
        match getNextUnit latex (i + 1) with
        | none => Except.ok nodes.dropLast
        | some u =>
          match loopF f u.content 0 [] with
          | .error e => .error e
          | .ok script =>
            loopF f latex u.endIndex
              (nodes.dropLast ++
                [ if latex.get ⟨i, h⟩ = '^'
                  then MathNode.sup [(nodes.getLast?).getD (MathNode.run [])] script
                  else MathNode.sub [(nodes.getLast?).getD (MathNode.run [])] script ])
      else if latex.get ⟨i, h⟩ = '\\' then
        if (latex.drop i).take 5 = fracTok then
          match getNextUnit latex (i + 5) with
          | none => .error .typeError
          | some u1 =>
            match getNextUnit latex u1.endIndex with
            | none => .error .typeError
            | some u2 =>
              match loopF f u1.content 0 [] with
              | .error e => .error e
              | .ok num =>
                match loopF f u2.content 0 [] with
                | .error e => .error e
                | .ok den =>
                  loopF f latex u2.endIndex (nodes ++ [MathNode.frac num den])
        else if (latex.drop i).take 5 = sqrtTok then
          match getNextUnit latex (i + 5) with
          | none => .error .typeError
          | some u =>
            match loopF f u.content 0 [] with
            | .error e => .error e
            | .ok rad => loopF f latex u.endIndex (nodes ++ [MathNode.rad rad])
        else
          loopF f latex (scanAlpha latex (i + 1))
            (nodes ++ [MathNode.run (symbolResult (slice latex i (scanAlpha latex (i + 1))))])
      else if latex.get ⟨i, h⟩ = obr ∨ latex.get ⟨i, h⟩ = cbr then
        loopF f latex (i + 1) nodes
      else
        loopF f latex (i + 1) (nodes ++ [MathNode.run [latex.get ⟨i, h⟩]])
    else Except.ok nodes

/-- `parseLatexNodes(latex)`: run the scanning loop from cursor `0` with an
empty node list and a fuel budget that dominates the loop's terminating
measure. -/
def parseLatexNodes (l : List Char) : Except PErr (List MathNode) :=
  loopF ((l.length + 2) * (l.length + 2)) l 0 []

/-- An inline element of an assembled paragraph: a plain `TextRun` or a
`Math` zone wrapping parsed nodes (`createMathParagraph`). -/
inductive Inline : Type where
  | text (s : List Char)
  | mathZone (nodes : List MathNode)

/-- A paragraph of the assembled document: a bold heading (the `## ` case)
or a body paragraph of inline elements. -/
inductive Para : Type where
  | heading (s : List Char)
  | body (elems : List Inline)

/-- One attempt of the regex `/\$([^$]+)\$/` at the head of the list, with
the engine's retry at the next position on failure: returns the text before
the match, the captured group, and the remainder after the closing dollar
(`none` when no match exists anywhere). -/
def findMatch : List Char → Option (List Char × List Char × List Char)
  | [] => none
  | c :: rest =>
    if c = '$' then
      if (rest.takeWhile (fun x => decide (x ≠ '$'))).length ≠ 0 ∧
         (rest.dropWhile (fun x => decide (x ≠ '$'))).length ≠ 0 then
        some ([], rest.takeWhile (fun x => decide (x ≠ '$')),
              (rest.dropWhile (fun x => decide (x ≠ '$'))).tail)
      else
        match findMatch rest with
        | none => none
        | some (b, m, r) => some (c :: b, m, r)
    else
      match findMatch rest with
      | none => none
      | some (b, m, r) => some (c :: b, m, r)

/-- `line.split(/\$([^$]+)\$/g)`, fuel-indexed: the pieces between matches
at even positions and the captured math contents at odd positions (the
trailing piece is kept even when empty, as in JavaScript). -/
def splitMathF : Nat → List Char → List (List Char)
  | 0, l => [l]
  | Nat.succ f, l =>
    match findMatch l with
    | none => [l]
    | some (b, m, r) => b :: m :: splitMathF f r

/-- The dollar split with enough fuel (each match consumes at least two
characters). -/
def splitMath (l : List Char) : List (List Char) :=
  splitMathF (l.length + 1) l

/-- JavaScript `str.replace(pat, '')` for a string pattern: remove the
first occurrence of `pat`, scanning left to right. -/
def replaceFirstAux : List Char → List Char → List Char
  | [], _ => []
  | c :: rest, pat =>
    if (c :: rest).take pat.length = pat then (c :: rest).drop pat.length
    else c :: replaceFirstAux rest pat

/-- `parts.map((part, index) => ...)` from `generateWordDocument`: odd
indices become math zones via `createMathParagraph` (whose parse failure
propagates), even indices become text runs. -/
def buildElems : List (List Char) → Nat → Except PErr (List Inline)
  | [], _ => .ok []
  | p :: ps, idx =>
    if idx % 2 = 1 then
      match parseLatexNodes p with
      | .error e => .error e
      | .ok ns =>
        match buildElems ps (idx + 1) with
        | .error e => .error e
        | .ok rest => .ok (Inline.mathZone ns :: rest)
    else
      match buildElems ps (idx + 1) with
      | .error e => .error e
      | .ok rest => .ok (Inline.text p :: rest)

/-- The per-line body of `generateWordDocument`: a line starting with
`## ` becomes a heading paragraph with that marker's first occurrence
removed and no dollar splitting; any other line is split on the dollar
regex and assembled into alternating text and math inline elements. -/
def assembleLine (line : List Char) : Except PErr Para :=
  if line.take 3 = "## ".toList then
    .ok (Para.heading (replaceFirstAux line "## ".toList))
  else
    match buildElems (splitMath line) 0 with
    | .error e => .error e
    | .ok elems => .ok (Para.body elems)

/-- `generateWordDocument(content)` up to the docx serialization: split the
content on newlines and assemble every line. -/
def generateWordDocument (content : List Char) : Except PErr (List Para) :=
  (content.splitOn '\n').mapM assembleLine

/-- `MODELS_TO_TRY` from GeminiService.js, in priority order. -/
def MODELS_TO_TRY : List (List Char) :=
  ["gemini-2.5-flash".toList, "gemini-2.5-pro".toList, "gemini-2.0-flash".toList]

/-- Failure of `extractContentFromFiles`: the last model error rethrown
after the loop, or the generic `"All model attempts failed"` error used
when `lastError` is still `null` (only possible with an empty model list). -/
inductive ExtractErr (ε : Type) : Type where
  | modelFailure (e : ε)
  | allFailed

/-- The fallback loop of `extractContentFromFiles`: try the models in
order, remembering the last error; a success returns immediately; after
exhausting the list, throw the last error (or the generic error when no
model was ever tried).  The per-model generation attempt is the supplied
`attempt` oracle. -/
def tryModels {ε α : Type} (attempt : List Char → Except ε α) :
    List (List Char) → Option ε → Except (ExtractErr ε) α
  | [], none => .error .allFailed
  | [], some e => .error (.modelFailure e)
  | m :: ms, _lastErr =>
    match attempt m with
    | .ok v => .ok v
    | .error e => tryModels attempt ms (some e)

/-- `extractContentFromFiles`: run the fallback loop over `MODELS_TO_TRY`
with `lastError` initially `null`. -/
def extractContentFromFiles {ε α : Type} (attempt : List Char → Except ε α) :
    Except (ExtractErr ε) α :=
  tryModels attempt MODELS_TO_TRY none

/-- Spec-side description for C6: one `Run` per character, spaces skipped. -/
def runsOf : List Char → List MathNode
  | [] => []
  | c :: rest => if c = ' ' then runsOf rest else MathNode.run [c] :: runsOf rest

/-- Spec-side predicate for C5/C10: scanning these characters with the
given starting depth never brings the depth back to zero (no matching
close brace). -/
def neverCloses : List Char → Nat → Bool
  | [], d => decide (0 < d)
  | c :: rest, d =>
    if d = 0 then false
    else neverCloses rest (if c = obr then d + 1 else if c = cbr then d - 1 else d)

mutual

/-- Spec-side invariant for C3: every scripted node has a non-empty base,
recursively through the tree. -/
def nodeOK : MathNode → Bool
  | .run _ => true
  | .frac n d => nodesOK n && nodesOK d
  | .rad r => nodesOK r
  | .sup b s => (!b.isEmpty) && nodesOK b && nodesOK s
  | .sub b s => (!b.isEmpty) && nodesOK b && nodesOK s

/-- `nodeOK` over a list of nodes. -/
def nodesOK : List MathNode → Bool
  | [] => true
  | n :: ns => nodeOK n && nodesOK ns

end

/-- When the depth never returns to zero, the brace scan runs to the end of
the remaining characters. -/
theorem braceScanList_of_neverCloses :
    ∀ (rest : List Char) (d e : Nat), neverCloses rest d = true →
      braceScanList rest d e = e + rest.length := by
  intro rest
  induction rest with
  | nil => intro d e _; simp [braceScanList]
  | cons c tl ih =>
    intro d e hn
    simp only [neverCloses] at hn
    by_cases hd : d = 0
    · simp [hd] at hn
    · simp only [if_neg hd] at hn
      simp only [braceScanList, if_neg hd, ih _ _ hn, List.length_cons]
      omega

/-- `indexOf` finds the position the cursor already stands on. -/
theorem indexOfFrom_self (l : List Char) (c : Char) (s : Nat) (h : s < l.length)
    (hc : l.get ⟨s, h⟩ = c) : indexOfFrom l c s = some s := by
  rw [List.get_eq_getElem] at hc
  simp only [indexOfFrom, List.drop_eq_getElem_cons h, List.findIdx?_cons, hc,
    beq_self_eq_true, if_true, Option.map_some]
  simp

/-- At a group-open marker with no matching close marker, `extractGroup`
returns everything after the marker except the final character and an end
index equal to the length of the string. -/
theorem extractGroup_of_neverCloses (l : List Char) (s : Nat) (h : s < l.length)
    (hc : l.get ⟨s, h⟩ = obr) (hn : neverCloses (l.drop (s + 1)) 1 = true) :
    extractGroup l s = (slice l (s + 1) (l.length - 1), l.length) := by
  have he : s + 1 + (l.length - (s + 1)) = l.length := by omega
  simp only [extractGroup, indexOfFrom_self l obr s h hc,
    braceScanList_of_neverCloses _ _ _ hn, List.length_drop, he]

/-- When no group-open marker exists at or after the cursor, `extractGroup`
returns empty content and advances by one. -/
theorem extractGroup_of_no_open (l : List Char) (s : Nat)
    (h : indexOfFrom l obr s = none) : extractGroup l s = ([], s + 1) := by
  simp only [extractGroup, h]

/-- C1.  The claim says `parseLatexNodes` is total and that a structural
command reaching the end of the input silently truncates.  The code instead
throws: with `"\frac"` (and `"\sqrt"`, and `"\frac{1}"`) the operand lookup
`getNextUnit` returns `null` and the immediate `.endIndex` dereference is a
TypeError, embedded here as `.error .typeError`. -/
theorem C1_structural_command_at_eoi_raises :
    parseLatexNodes "\\frac".toList = .error .typeError ∧
    parseLatexNodes "\\sqrt".toList = .error .typeError ∧
    parseLatexNodes "\\frac\x7b1\x7d".toList = .error .typeError :=
  ⟨rfl, rfl, rfl⟩

/-- C5, counterexample.  At cursor 0 of `"{ab"` — a group-open marker with
no matching close marker — `extractGroup` does not return empty content and
does not advance by one position: it returns content `"a"` and end index 3. -/
theorem C5_counterexample :
    "\x7bab".toList.get ⟨0, by decide⟩ = obr ∧
    neverCloses ("\x7bab".toList.drop 1) 1 = true ∧
    (extractGroup "\x7bab".toList 0).1 ≠ [] ∧
    (extractGroup "\x7bab".toList 0).2 ≠ 0 + 1 := by
  refine ⟨rfl, rfl, ?_, ?_⟩ <;> decide

/-- C5, amended.  The empty-content/advance-one result occurs exactly in
the `indexOf`-miss case, when no group-open marker exists anywhere at or
after the cursor; at a group-open marker with no matching close marker the
helper instead returns the substring from just after the marker up to but
excluding the final character of the string and advances the cursor to the
end of the input. -/
theorem C5_amended_unclosed_group :
    (∀ (l : List Char) (s : Nat) (h : s < l.length),
        l.get ⟨s, h⟩ = obr → neverCloses (l.drop (s + 1)) 1 = true →
        extractGroup l s = (slice l (s + 1) (l.length - 1), l.length)) ∧
    (∀ (l : List Char) (s : Nat), indexOfFrom l obr s = none →
        extractGroup l s = ([], s + 1)) :=
  ⟨extractGroup_of_neverCloses, extractGroup_of_no_open⟩

/-- C5, witness for the amended theorem at `"{ab"`, cursor 0. -/
theorem C5_witness :
    extractGroup "\x7bab".toList 0 =
      (slice "\x7bab".toList 1 ("\x7bab".toList.length - 1), "\x7bab".toList.length) :=
  C5_amended_unclosed_group.1 "\x7bab".toList 0 (by decide) rfl rfl

/-- C10.  A group opened by a brace with no matching close yields the
substring from just after the open brace up to but excluding the final
character, with the cursor advanced to the end of the input; consequently
`parse("\frac{1}{2")` is a fraction with empty denominator (the `"2"` is
dropped) and `parse("\sqrt{ab")` is a radical over `"a"` (the `"b"` is
dropped). -/
theorem C10_unclosed_group_truncation :
    (∀ (l : List Char) (s : Nat) (h : s < l.length),
        l.get ⟨s, h⟩ = obr → neverCloses (l.drop (s + 1)) 1 = true →
        extractGroup l s = (slice l (s + 1) (l.length - 1), l.length)) ∧
    parseLatexNodes "\\frac\x7b1\x7d\x7b2".toList =
      .ok [MathNode.frac [MathNode.run ['1']] []] ∧
    parseLatexNodes "\\sqrt\x7bab".toList =
      .ok [MathNode.rad [MathNode.run ['a']]] :=
  ⟨extractGroup_of_neverCloses, rfl, rfl⟩

/-- C10, witness for the group-truncation part at `"{xy"`, cursor 0. -/
theorem C10_witness :
    extractGroup "\x7bxy".toList 0 =
      (slice "\x7bxy".toList 1 ("\x7bxy".toList.length - 1), "\x7bxy".toList.length) :=
  C10_unclosed_group_truncation.1 "\x7bxy".toList 0 (by decide) rfl rfl

/-- C2.  When the scanner stands on a `\frac` prefix and `getNextUnit`
yields two operand units whose raw texts parse to `num` and `den`, the loop
consumes exactly those two units (resuming at the second unit's end index)
and appends the single node `Fraction{num, den}`; and
`parse("\frac{1}{2}")` is exactly `[Fraction{[Run "1"], [Run "2"]}]`. -/
theorem C2_frac_consumes_two_units :
    (∀ (f : Nat) (l : List Char) (i : Nat) (nodes : List MathNode)
        (u1 u2 : UnitInfo) (num den : List MathNode) (h : i < l.length),
        l.get ⟨i, h⟩ = '\\' →
        (l.drop i).take 5 = fracTok →
        getNextUnit l (i + 5) = some u1 →
        getNextUnit l u1.endIndex = some u2 →
        loopF f u1.content 0 [] = .ok num →
        loopF f u2.content 0 [] = .ok den →
        loopF (f + 1) l i nodes =
          loopF f l u2.endIndex (nodes ++ [MathNode.frac num den])) ∧
    parseLatexNodes "\\frac\x7b1\x7d\x7b2\x7d".toList =
      .ok [MathNode.frac [MathNode.run ['1']] [MathNode.run ['2']]] := by
  constructor
  · intro f l i nodes u1 u2 num den h hc hfrac hu1 hu2 hnum hden
    rw [List.get_eq_getElem] at hc
    simp only [loopF]
    rw [dif_pos h]
    simp [hc, hfrac, hu1, hu2, hnum, hden]
  · rfl

/-- C2, witness: one step of the loop on `"\frac12"` at cursor 0 consumes
the two single-character units and appends the fraction node. -/
theorem C2_witness :
    loopF 5 "\\frac12".toList 0 [] =
      loopF 4 "\\frac12".toList 7
        [MathNode.frac [MathNode.run ['1']] [MathNode.run ['2']]] :=
  C2_frac_consumes_two_units.1 4 "\\frac12".toList 0 []
    ⟨['1'], 6, false⟩ ⟨['2'], 7, false⟩
    [MathNode.run ['1']] [MathNode.run ['2']]
    (by decide) rfl rfl rfl rfl rfl rfl

/-- C9.  When the scanner stands on a script operator that is the final
character of the input, the most recently appended node is popped and then
discarded (the loop `break`s after `getNextUnit` returns `null`), so the
result is the accumulated list without its last node; in particular
`parse("x^")` is the empty sequence, losing `Run("x")`. -/
theorem C9_trailing_script_drops_base :
    (∀ (f : Nat) (l : List Char) (i : Nat) (nodes : List MathNode)
        (h : i < l.length),
        (l.get ⟨i, h⟩ = '^' ∨ l.get ⟨i, h⟩ = '_') →
        l.length = i + 1 →
        loopF (f + 1) l i nodes = .ok nodes.dropLast) ∧
    parseLatexNodes "x^".toList = .ok [] := by
  constructor
  · intro f l i nodes h hc hlen
    have hnone : getNextUnit l (i + 1) = none := by
      simp [getNextUnit, hlen]
    rw [List.get_eq_getElem] at hc
    rcases hc with hc | hc <;>
    · simp only [loopF]
      rw [dif_pos h]
      simp [hc, hnone]
  · rfl

/-- C9, witness: the loop on `"a^"` at the trailing operator discards the
popped `Run("a")`. -/
theorem C9_witness :
    loopF 3 "a^".toList 1 [MathNode.run ['a']] = .ok [] :=
  C9_trailing_script_drops_base.1 2 "a^".toList 1 [MathNode.run ['a']]
    (by decide) (Or.inl rfl) rfl

/-- C8.  The extraction collaborator tries `MODELS_TO_TRY` in order and
returns the first success; when every model fails it throws the error of
the last model tried (never a degraded value). -/
theorem C8_model_fallback_order :
    ∀ (ε α : Type) (attempt : List Char → Except ε α) (v : α) (e1 e2 e3 : ε),
      (attempt "gemini-2.5-flash".toList = .ok v →
        extractContentFromFiles attempt = .ok v) ∧
      (attempt "gemini-2.5-flash".toList = .error e1 →
        attempt "gemini-2.5-pro".toList = .ok v →
        extractContentFromFiles attempt = .ok v) ∧
      (attempt "gemini-2.5-flash".toList = .error e1 →
        attempt "gemini-2.5-pro".toList = .error e2 →
        attempt "gemini-2.0-flash".toList = .ok v →
        extractContentFromFiles attempt = .ok v) ∧
      (attempt "gemini-2.5-flash".toList = .error e1 →
        attempt "gemini-2.5-pro".toList = .error e2 →
        attempt "gemini-2.0-flash".toList = .error e3 →
        extractContentFromFiles attempt = .error (.modelFailure e3)) := by
  intro ε α attempt v e1 e2 e3
  refine ⟨?_, ?_, ?_, ?_⟩ <;> intros <;>
    simp_all [extractContentFromFiles, MODELS_TO_TRY, tryModels]

/-- C8, witness: an oracle failing on the first model and succeeding on the
second makes extraction return that second success. -/
theorem C8_witness :
    extractContentFromFiles
      (fun m => if m = "gemini-2.5-pro".toList then (.ok 7 : Except Nat Nat)
                else .error 3) = .ok 7 :=
  (C8_model_fallback_order Nat Nat _ 7 3 3 3).2.1 rfl rfl

/-- Auxiliary: `takeWhile` keeps a list all of whose elements satisfy the
predicate. -/
theorem takeWhile_of_all (p : Char → Bool) :
    ∀ (cs : List Char), (∀ c ∈ cs, p c = true) → cs.takeWhile p = cs := by
  intro cs
  induction cs with
  | nil => intro _; rfl
  | cons c tl ih =>
    intro hall
    rw [List.takeWhile_cons, if_pos (hall c (List.mem_cons_self c tl))]
    rw [ih fun x hx => hall x (List.mem_cons_of_mem c hx)]

/-- Core of C6: from any cursor position whose remaining characters contain
no escape markers, script operators or braces, the loop appends one `Run`
per non-space character and skips the spaces. -/
theorem loopF_plain :
    ∀ (f i : Nat) (l : List Char) (nodes : List MathNode),
      l.length - i < f →
      (∀ c ∈ l.drop i, c ≠ '\\' ∧ c ≠ '^' ∧ c ≠ '_' ∧ c ≠ obr ∧ c ≠ cbr) →
      loopF f l i nodes = .ok (nodes ++ runsOf (l.drop i)) := by
  intro f
  induction f with
  | zero => intro i l nodes hf; omega
  | succ f ih =>
    intro i l nodes hf hplain
    by_cases hi : i < l.length
    · have hdrop : l.drop i = l[i] :: l.drop (i + 1) := List.drop_eq_getElem_cons hi
      have hmem : l[i] ∈ l.drop i := by rw [hdrop]; exact List.mem_cons_self _ _
      obtain ⟨hbs, hup, hun, hob, hcb⟩ := hplain _ hmem
      have hplain' : ∀ c ∈ l.drop (i + 1),
          c ≠ '\\' ∧ c ≠ '^' ∧ c ≠ '_' ∧ c ≠ obr ∧ c ≠ cbr := by
        intro c hcmem
        exact hplain c (by rw [hdrop]; exact List.mem_cons_of_mem _ hcmem)
      simp only [loopF]
      rw [dif_pos hi]
      simp only [List.get_eq_getElem]
      by_cases hsp : l[i] = ' '
      · rw [if_pos hsp, ih (i + 1) l nodes (by omega) hplain', hdrop]
        simp [runsOf, hsp]
      · rw [if_neg hsp, if_neg (by simp [hup, hun]), if_neg hbs,
          if_neg (by simp [hob, hcb]),
          ih (i + 1) l (nodes ++ [MathNode.run [l[i]]]) (by omega) hplain', hdrop]
        simp [runsOf, hsp]
    · have hnil : l.drop i = [] := List.drop_eq_nil_of_le (by omega)
      simp only [loopF]
      rw [dif_neg hi, hnil]
      simp [runsOf]

/-- C6.  On input containing no escape markers, script operators or braces,
`parseLatexNodes` returns one `Run` node per non-space character in source
order, skipping every space; in particular
`parse("abc") = [Run "a", Run "b", Run "c"]`. -/
theorem C6_plain_text_runs :
    (∀ (l : List Char),
        (∀ c ∈ l, c ≠ '\\' ∧ c ≠ '^' ∧ c ≠ '_' ∧ c ≠ obr ∧ c ≠ cbr) →
        parseLatexNodes l = .ok (runsOf l)) ∧
    parseLatexNodes "abc".toList =
      .ok [MathNode.run ['a'], MathNode.run ['b'], MathNode.run ['c']] ∧
    runsOf "a b".toList = [MathNode.run ['a'], MathNode.run ['b']] := by
  refine ⟨?_, rfl, rfl⟩
  intro l hplain
  have h2 : l.length + 2 ≤ (l.length + 2) * (l.length + 2) :=
    Nat.le_mul_of_pos_left _ (by omega)
  have hfuel : l.length - 0 < (l.length + 2) * (l.length + 2) := by
    have h1 : l.length - 0 < l.length + 2 := by omega
    exact Nat.lt_of_lt_of_le h1 h2
  have := loopF_plain ((l.length + 2) * (l.length + 2)) 0 l [] hfuel
    (by simpa using hplain)
  simpa [parseLatexNodes] using this

/-- C6, witness: the plain-text theorem applied to `"x y"`. -/
theorem C6_witness :
    parseLatexNodes "x y".toList = .ok (runsOf "x y".toList) :=
  C6_plain_text_runs.1 "x y".toList (by decide)

/-- Core of C4: a backslash followed by a non-empty all-alphabetic run
that does not start with the structural tokens is consumed whole and
pushed through the symbol table (with JavaScript truthiness). -/
theorem loopF_command :
    ∀ (f : Nat) (cs : List Char) (nodes : List MathNode),
      (∀ c ∈ cs, isAsciiAlpha c = true) →
      ('\\' :: cs).take 5 ≠ fracTok → ('\\' :: cs).take 5 ≠ sqrtTok →
      loopF (f + 2) ('\\' :: cs) 0 nodes =
        .ok (nodes ++ [MathNode.run (symbolResult ('\\' :: cs))]) := by
  intro f cs nodes halpha hfrac hsqrt
  have hlen : 0 < ('\\' :: cs).length := by simp
  have hsa : scanAlpha ('\\' :: cs) 1 = ('\\' :: cs).length := by
    simp [scanAlpha, takeWhile_of_all _ _ halpha]
    omega
  have hslice : slice ('\\' :: cs) 0 (scanAlpha ('\\' :: cs) 1) = '\\' :: cs := by
    rw [hsa]
    simp [slice, List.take_length]
  have c1 : (('\\' : Char) = ' ') = False := by decide
  have c2 : (('\\' : Char) = '^' ∨ ('\\' : Char) = '_') = False := by decide
  have c3 : (('\\' : Char) = '\\') = True := by decide
  have c4 : (List.take 5 ('\\' :: cs) = fracTok) = False := eq_false hfrac
  have c5 : (List.take 5 ('\\' :: cs) = sqrtTok) = False := eq_false hsqrt
  simp only [loopF]
  rw [dif_pos hlen]
  simp only [List.get_eq_getElem, List.getElem_cons_zero, List.drop_zero,
    c1, c2, c3, c4, c5, if_false, if_true]
  rw [hslice, hsa]
  rw [dif_neg (by omega)]

/-- C4.  Any escape-marker-prefixed alphabetic command not intercepted by
the structural `\frac`/`\sqrt` prefix test is looked up in `LATEX_SYMBOLS`
(a truthy hit emits `Run(symbol)`, a miss emits the raw command text); in
particular `parse("\alpha") = [Run "α"]` and
`parse("\unknowncmd") = [Run "\unknowncmd"]`. -/
theorem C4_symbol_commands :
    (∀ (cs : List Char),
        (∀ c ∈ cs, isAsciiAlpha c = true) →
        ('\\' :: cs).take 5 ≠ fracTok → ('\\' :: cs).take 5 ≠ sqrtTok →
        parseLatexNodes ('\\' :: cs) = .ok [MathNode.run (symbolResult ('\\' :: cs))]) ∧
    parseLatexNodes "\\alpha".toList = .ok [MathNode.run "α".toList] ∧
    parseLatexNodes "\\unknowncmd".toList = .ok [MathNode.run "\\unknowncmd".toList] := by
  refine ⟨?_, rfl, rfl⟩
  intro cs halpha hfrac hsqrt
  have h2 : 2 ≤ ('\\' :: cs).length + 2 := by omega
  have h4 : 4 ≤ (('\\' :: cs).length + 2) * (('\\' :: cs).length + 2) := by
    calc 4 = 2 * 2 := by norm_num
      _ ≤ (('\\' :: cs).length + 2) * (('\\' :: cs).length + 2) :=
        Nat.mul_le_mul h2 h2
  obtain ⟨f, hf⟩ : ∃ f, (('\\' :: cs).length + 2) * (('\\' :: cs).length + 2) = f + 2 :=
    ⟨(('\\' :: cs).length + 2) * (('\\' :: cs).length + 2) - 2, by omega⟩
  rw [parseLatexNodes, hf, loopF_command f cs [] halpha hfrac hsqrt]
  simp

/-- C4, witness: the symbol-command theorem applied to `"\beta"`. -/
theorem C4_witness :
    parseLatexNodes ('\\' :: "beta".toList) =
      .ok [MathNode.run (symbolResult ('\\' :: "beta".toList))] :=
  C4_symbol_commands.1 "beta".toList (by decide) (by decide) (by decide)

/-- `nodesOK` distributes over append. -/
theorem nodesOK_append : ∀ (a b : List MathNode),
    nodesOK (a ++ b) = (nodesOK a && nodesOK b) := by
  intro a b
  induction a with
  | nil => simp [nodesOK]
  | cons n ns ih => simp [nodesOK, ih, Bool.and_assoc]

/-- Dropping the last node preserves `nodesOK`. -/
theorem nodesOK_dropLast (l : List MathNode) (h : nodesOK l = true) :
    nodesOK l.dropLast = true := by
  induction l using List.reverseRecOn with
  | nil => rfl
  | append_singleton l' a _ =>
    rw [List.dropLast_concat]
    rw [nodesOK_append] at h
    exact ((Bool.and_eq_true _ _).mp h).1

/-- The popped base (or the synthesized empty run) satisfies `nodeOK`. -/
theorem nodeOK_getLastD (l : List MathNode) (h : nodesOK l = true) :
    nodeOK ((l.getLast?).getD (MathNode.run [])) = true := by
  induction l using List.reverseRecOn with
  | nil => rfl
  | append_singleton l' a _ =>
    rw [List.getLast?_concat]
    rw [nodesOK_append] at h
    have ha := ((Bool.and_eq_true _ _).mp h).2
    simp [nodesOK] at ha
    simpa using ha

/-- Core of C3: every node list the loop can return satisfies `nodesOK`
provided the accumulated list does; in particular every scripted node in
the output has a non-empty (one-element) base list. -/
theorem loopF_ok_nodesOK :
    ∀ (f : Nat) (l : List Char) (i : Nat) (nodes r : List MathNode),
      nodesOK nodes = true → loopF f l i nodes = .ok r → nodesOK r = true := by
  intro f
  induction f with
  | zero =>
    intro l i nodes r _ h
    simp [loopF] at h
  | succ f ih =>
    intro l i nodes r hn h
    simp only [loopF] at h
    by_cases hi : i < l.length
    · rw [dif_pos hi] at h
      split at h
      · exact ih _ _ _ _ hn h
      · split at h
        · -- script operator branch
          split at h
          · injection h with h'
            exact h' ▸ nodesOK_dropLast _ hn
          · rename_i u hu
            split at h
            · exact Except.noConfusion h
            · rename_i script hscript
              refine ih _ _ _ _ ?_ h
              rw [nodesOK_append, nodesOK_dropLast _ hn]
              have hs : nodesOK script = true := ih _ _ [] _ rfl hscript
              have hb : nodeOK ((nodes.getLast?).getD (MathNode.run [])) = true :=
                nodeOK_getLastD _ hn
              split <;> simp [nodesOK, nodeOK, hs, hb]
        · split at h
          · -- backslash branch
            split at h
            · -- frac prefix
              split at h
              · exact Except.noConfusion h
              · rename_i u1 hu1
                split at h
                · exact Except.noConfusion h
                · rename_i u2 hu2
                  split at h
                  · exact Except.noConfusion h
                  · rename_i num hnum
                    split at h
                    · exact Except.noConfusion h
                    · rename_i den hden
                      refine ih _ _ _ _ ?_ h
                      have hnum' : nodesOK num = true := ih _ _ [] _ rfl hnum
                      have hden' : nodesOK den = true := ih _ _ [] _ rfl hden
                      rw [nodesOK_append]
                      simp [nodesOK, nodeOK, hn, hnum', hden']
            · split at h
              · -- sqrt prefix
                split at h
                · exact Except.noConfusion h
                · rename_i u hu
                  split at h
                  · exact Except.noConfusion h
                  · rename_i rad hrad
                    refine ih _ _ _ _ ?_ h
                    have hrad' : nodesOK rad = true := ih _ _ [] _ rfl hrad
                    rw [nodesOK_append]
                    simp [nodesOK, nodeOK, hn, hrad']
              · -- generic command
                refine ih _ _ _ _ ?_ h
                rw [nodesOK_append]
                simp [nodesOK, nodeOK, hn]
          · split at h
            · exact ih _ _ _ _ hn h
            · refine ih _ _ _ _ ?_ h
              rw [nodesOK_append]
              simp [nodesOK, nodeOK, hn]
    · rw [dif_neg hi] at h
      injection h with h'
      exact h' ▸ hn

/-- C3.  Every `Scripted` node produced by the parser has a non-empty base
(the popped node, or a synthesized empty `Run` when the result sequence was
empty, wrapped as a one-element list), recursively throughout the tree; in
particular `parse("^2")` does not fail and its base resolves to `Run("")`. -/
theorem C3_scripted_base_nonempty :
    (∀ (l : List Char) (r : List MathNode),
        parseLatexNodes l = .ok r → nodesOK r = true) ∧
    parseLatexNodes "^2".toList =
      .ok [MathNode.sup [MathNode.run []] [MathNode.run ['2']]] :=
  ⟨fun l r h => loopF_ok_nodesOK _ l 0 [] r rfl h, rfl⟩

/-- C3, witness: the invariant applied to the parse of `"^2"`. -/
theorem C3_witness :
    nodesOK [MathNode.sup [MathNode.run []] [MathNode.run ['2']]] = true :=
  C3_scripted_base_nonempty.1 "^2".toList
    [MathNode.sup [MathNode.run []] [MathNode.run ['2']]] rfl

/-- The inline elements produced by `parts.map((part, index) => ...)`
follow the split positionally: an even index becomes a text run holding
that part verbatim, an odd index becomes one math zone holding that part's
parse, in left-to-right order. -/
theorem buildElems_spec :
    ∀ (parts : List (List Char)) (idx : Nat) (elems : List Inline),
      buildElems parts idx = .ok elems →
      elems.length = parts.length ∧
      ∀ (k : Nat) (seg : List Char), parts[k]? = some seg →
        (if (idx + k) % 2 = 1
         then ∃ ns, parseLatexNodes seg = .ok ns ∧
                    elems[k]? = some (Inline.mathZone ns)
         else elems[k]? = some (Inline.text seg)) := by
  intro parts
  induction parts with
  | nil =>
    intro idx elems h
    simp only [buildElems] at h
    injection h with h'
    subst h'
    refine ⟨rfl, ?_⟩
    intro k seg hk
    simp at hk
  | cons p ps ih =>
    intro idx elems h
    simp only [buildElems] at h
    split at h
    · rename_i hodd
      split at h
      · exact Except.noConfusion h
      · rename_i ns hns
        split at h
        · exact Except.noConfusion h
        · rename_i rest hrest
          injection h with h'
          subst h'
          obtain ⟨hlen, hspec⟩ := ih (idx + 1) rest hrest
          refine ⟨by simp [hlen], ?_⟩
          intro k seg hk
          match k with
          | 0 =>
            simp only [List.getElem?_cons_zero, Option.some_inj] at hk
            subst hk
            rw [if_pos (by simpa using hodd)]
            exact ⟨ns, hns, by simp⟩
          | Nat.succ j =>
            simp only [List.getElem?_cons_succ] at hk
            have hj := hspec j seg hk
            rw [show idx + (j + 1) = idx + 1 + j from by omega]
            simpa using hj
    · rename_i heven
      split at h
      · exact Except.noConfusion h
      · rename_i rest hrest
        injection h with h'
        subst h'
        obtain ⟨hlen, hspec⟩ := ih (idx + 1) rest hrest
        refine ⟨by simp [hlen], ?_⟩
        intro k seg hk
        match k with
        | 0 =>
          simp only [List.getElem?_cons_zero, Option.some_inj] at hk
          subst hk
          rw [if_neg (by simpa using heven)]
          simp
        | Nat.succ j =>
          simp only [List.getElem?_cons_succ] at hk
          have hj := hspec j seg hk
          rw [show idx + (j + 1) = idx + 1 + j from by omega]
          simpa using hj

/-- C7, counterexample.  The claim's non-heading half is not universal: on
the line `"a$\frac$b"` the assembler does not emit an alternation of inline
elements at all — the math segment `"\frac"` hits the C1 TypeError inside
`createMathParagraph` and the error propagates out of the per-line
assembly. -/
theorem C7_counterexample :
    assembleLine "a$\\frac$b".toList = .error .typeError := rfl

/-- C7, amended.  A line starting with `## ` always becomes a bold heading
paragraph with the marker removed and no math splitting.  For any other
line, whenever the assembler does produce a paragraph it is a body
paragraph with exactly one inline element per part of the single-dollar
split, in left-to-right source order: even-index parts as plain-text runs
and each odd-index part as one math zone holding that segment's parse
(when some math segment's parse raises, the assembler propagates the error
and emits no paragraph for that line).  For
`"Area is $\frac{1}{2}bh$ sq units"` the result is exactly text, math zone
(fraction node, run `b`, run `h`), text. -/
theorem C7_line_assembly :
    (∀ (rest : List Char),
        assembleLine ("## ".toList ++ rest) = .ok (Para.heading rest)) ∧
    (∀ (line : List Char) (p : Para),
        ¬(line.take 3 = "## ".toList) →
        assembleLine line = .ok p →
        ∃ elems, p = Para.body elems ∧
          elems.length = (splitMath line).length ∧
          ∀ (k : Nat) (seg : List Char), (splitMath line)[k]? = some seg →
            (if k % 2 = 1
             then ∃ ns, parseLatexNodes seg = .ok ns ∧
                        elems[k]? = some (Inline.mathZone ns)
             else elems[k]? = some (Inline.text seg))) ∧
    assembleLine "Area is $\\frac\x7b1\x7d\x7b2\x7dbh$ sq units".toList =
      .ok (Para.body
        [Inline.text "Area is ".toList,
         Inline.mathZone
           [MathNode.frac [MathNode.run ['1']] [MathNode.run ['2']],
            MathNode.run ['b'], MathNode.run ['h']],
         Inline.text " sq units".toList]) := by
  refine ⟨?_, ?_, rfl⟩
  · intro rest
    show assembleLine ('#' :: '#' :: ' ' :: rest) = .ok (Para.heading rest)
    simp [assembleLine, replaceFirstAux, List.take, List.drop]
  · intro line p hne hok
    simp only [assembleLine] at hok
    rw [if_neg hne] at hok
    split at hok
    · exact Except.noConfusion hok
    · rename_i elems helems
      injection hok with h'
      subst h'
      refine ⟨elems, rfl, (buildElems_spec _ 0 _ helems).1, ?_⟩
      intro k seg hk
      have hkth := (buildElems_spec _ 0 _ helems).2 k seg hk
      simpa using hkth

/-- C7, witness: the alternation clause applied to the line `"x$y$z"`,
whose assembly is text, math zone, text. -/
theorem C7_witness :
    ∃ elems,
      Para.body [Inline.text ['x'], Inline.mathZone [MathNode.run ['y']],
        Inline.text ['z']] = Para.body elems ∧
      elems.length = (splitMath "x$y$z".toList).length ∧
      ∀ (k : Nat) (seg : List Char), (splitMath "x$y$z".toList)[k]? = some seg →
        (if k % 2 = 1
         then ∃ ns, parseLatexNodes seg = .ok ns ∧
                    elems[k]? = some (Inline.mathZone ns)
         else elems[k]? = some (Inline.text seg)) :=
  C7_line_assembly.2.1 "x$y$z".toList
    (Para.body [Inline.text ['x'], Inline.mathZone [MathNode.run ['y']],
      Inline.text ['z']])
    (by decide) rfl

end Math2Doc
